import Mathlib

/-!
Shallow embedding of the rule-based code-review engine of the
`chat-code-reviewer` repository (the route variant that implements the
heuristic static-analysis engine: `checkUnbalancedBraces`,
`detectMissingSemicolons`, `detectUnclosedQuotes`, `generateSuggestedFix`,
`analyzeCodeHeuristics`, and the `POST` handler with its zod schema).

Code text is modelled as `List Char`; language identifiers stay `String`
(only equality tests are performed on them).  JavaScript string operations
are modelled directly: `split("\n")`, `trim`, `startsWith`, `endsWith`,
`includes`, regex `/"/g` match counting, and the two loop regexes.
-/

namespace ChatCodeReviewer

/-- Character list of a string literal (JS strings are scanned per char). -/
def cs (s : String) : List Char := s.data

/-- Whitespace recognised by the model of JS `String.prototype.trim`
(blank, tab, carriage return, newline cover every input the engine builds,
since lines are produced by splitting on the newline character). -/
def wsChar (c : Char) : Bool :=
  c = ' ' || c = '\t' || c = '\r' || c = '\n'

/-- Model of JS `trimStart`. -/
def trimL (l : List Char) : List Char := l.dropWhile wsChar

/-- Model of JS `trimEnd`. -/
def trimR (l : List Char) : List Char := (l.reverse.dropWhile wsChar).reverse

/-- Model of JS `String.prototype.trim`. -/
def trimC (l : List Char) : List Char := trimR (trimL l)

/-- Model of JS `String.prototype.startsWith` on character lists. -/
def startsC : List Char → List Char → Bool
  | _, [] => true
  | [], _ :: _ => false
  | b :: ls, a :: ps => a == b && startsC ls ps

/-- Model of JS `String.prototype.endsWith` on character lists. -/
def endsC (l s : List Char) : Bool := startsC l.reverse s.reverse

/-- Model of JS `String.prototype.includes` (contiguous substring). -/
def hasSub : List Char → List Char → Bool
  | [], s => startsC [] s
  | c :: ls, s => startsC (c :: ls) s || hasSub ls s

/-- Model of JS `code.split("\n")` (splitting an empty string yields one
empty piece, exactly as in JavaScript). -/
def splitLines : List Char → List (List Char)
  | [] => [[]]
  | c :: rest =>
    if c = '\n' then [] :: splitLines rest
    else
      match splitLines rest with
      | [] => [[c]]
      | l :: ls => (c :: l) :: ls

/-- Model of JS `lines.join("\n")`. -/
def joinLines : List (List Char) → List Char
  | [] => []
  | [l] => l
  | l :: l2 :: ls => l ++ '\n' :: joinLines (l2 :: ls)

/-- Model of `(line.match(/"/g) || []).length`: the number of double-quote
characters of a line. -/
def quoteCount (l : List Char) : Nat := l.count '"'

/-- Model of JS `line.toLowerCase()`. -/
def toLowerC (l : List Char) : List Char := l.map Char.toLower

/-! ## Bracket balance checker (`checkUnbalancedBraces`) -/

/-- Source: `const pairs = { ")": "(", "}": "{", "]": "[" }` as a lookup. -/
def pairs (c : Char) : Char :=
  if c = ')' then '(' else if c = '\x7d' then '\x7b' else '['

/-- Diagnostic text of `Mismatched '${ch}' at position ${i}`. -/
def mismatchMsg (c : Char) (i : Nat) : String :=
  "Mismatched " ++ String.mk ['\'', c, '\''] ++ " at position " ++ Nat.repr i

/-- One character step of the bracket scan: push openers, pop and compare
closers (popping the empty stack behaves like the JS `undefined` pop and
always mismatches). -/
def braceStep (c : Char) (i : Nat) (stack : List Char) (errors : List String) :
    List Char × List String :=
  let stack1 := if (cs "(\x7b[").contains c then c :: stack else stack
  if (cs ")\x7d]").contains c then
    match stack1 with
    | [] => ([], errors ++ [mismatchMsg c i])
    | actual :: rest =>
      if actual = pairs c then (rest, errors)
      else (rest, errors ++ [mismatchMsg c i])
  else (stack1, errors)

/-- The character loop of `checkUnbalancedBraces` (index `i` tracks the
position used in diagnostics). -/
def braceScan : List Char → Nat → List Char → List String → List Char × List String
  | [], _, stack, errors => (stack, errors)
  | c :: rest, i, stack, errors =>
    braceScan rest (i + 1) (braceStep c i stack errors).1 (braceStep c i stack errors).2

/-- Source function `checkUnbalancedBraces`: scan, then report a trailing
diagnostic when openers remain on the stack. -/
def checkUnbalancedBraces (code : List Char) : List String :=
  let r := braceScan code 0 [] []
  if r.1.isEmpty then r.2 else r.2 ++ ["Opening braces/brackets not closed."]

/-! ## Statement-terminator checker (`detectMissingSemicolons`) -/

/-- The terminator-using language set tested by the source. -/
def terminatorLanguages : List String := ["C++", "Java", "JavaScript", "TypeScript"]

/-- The `likelyStatement` predicate shared by the checker and the fix
generator (substring tests on the trimmed line). -/
def likelyStatement (line : List Char) : Bool :=
  hasSub line (cs "=") ||
  hasSub line (cs "cout <<") ||
  hasSub line (cs "cin >>") ||
  hasSub line (cs "return") ||
  hasSub line (cs "console.log") ||
  hasSub line (cs "System.out.println")

/-- Diagnostic text of `Line ${lineNo}: Missing semicolon (';')`. -/
def missingSemiMsg (lineNo : Nat) : String :=
  "Line " ++ Nat.repr lineNo ++ ": Missing semicolon (" ++
    String.mk ['\'', ';', '\''] ++ ")"

/-- Per-line body of `detectMissingSemicolons` (`idx` is the 0-based line
index; the emitted message uses the 1-based number). -/
def semicolonLineIssue (idx : Nat) (raw : List Char) : Option String :=
  let line := trimC raw
  if line.isEmpty then none
  else if startsC line (cs "//") then none
  else if endsC line (cs "\x7b") || endsC line (cs "\x7d") then none
  else if likelyStatement line && !endsC line (cs ";") then
    some (missingSemiMsg (idx + 1))
  else none

/-- Source function `detectMissingSemicolons`. -/
def detectMissingSemicolons (language : String) (code : List Char) : List String :=
  if language ∈ terminatorLanguages then
    (splitLines code).enum.filterMap (fun p => semicolonLineIssue p.1 p.2)
  else []

/-! ## Quote closure checker (`detectUnclosedQuotes`) -/

/-- Diagnostic text of `Line ${i + 1}: Unclosed string literal (missing ")`. -/
def unclosedQuoteMsg (lineNo : Nat) : String :=
  "Line " ++ Nat.repr lineNo ++ ": Unclosed string literal (missing \")"

/-- Per-line body of `detectUnclosedQuotes`. -/
def quoteLineIssue (idx : Nat) (line : List Char) : Option String :=
  if quoteCount line % 2 ≠ 0 then some (unclosedQuoteMsg (idx + 1)) else none

/-- Source function `detectUnclosedQuotes`. -/
def detectUnclosedQuotes (code : List Char) : List String :=
  (splitLines code).enum.filterMap (fun p => quoteLineIssue p.1 p.2)

/-! ## Suggested-fix generator (`generateSuggestedFix`) -/

/-- The `ignore` predicate of the fix generator (block-delimiter endings and
construct-opening keywords, all on the trimmed line). -/
def fixIgnore (trimmed : List Char) : Bool :=
  endsC trimmed (cs "\x7b") ||
  endsC trimmed (cs "\x7d") ||
  startsC trimmed (cs "if") ||
  startsC trimmed (cs "for") ||
  startsC trimmed (cs "while")

/-- The per-line map of `generateSuggestedFix`: first append a closing quote
when the quote count is odd, then append a semicolon when the trimmed
original line looks like an unterminated statement.  Note that `trimmed` is
computed from the original line, before the quote repair, exactly as in the
source. -/
def fixLine (line : List Char) : List Char :=
  let trimmed := trimC line
  let withQuote := if quoteCount line % 2 ≠ 0 then line ++ ['"'] else line
  if likelyStatement trimmed && !endsC trimmed (cs ";") && !fixIgnore trimmed then
    withQuote ++ [';']
  else withQuote

/-- Source function `generateSuggestedFix`. -/
def generateSuggestedFix (language : String) (code : List Char) : List Char :=
  if language ∈ terminatorLanguages then
    joinLines ((splitLines code).map fixLine)
  else code

/-! ## Complexity estimator -/

/-- Length of a loop token (`for` or `while`) starting at index `i` of the
code, if any; this is the building block of both loop regexes. -/
def tokLenAt (s : List Char) (i : Nat) : Option Nat :=
  if startsC (s.drop i) (cs "for") then some 3
  else if startsC (s.drop i) (cs "while") then some 5
  else none

/-- Model of `/for|while/.test(code)`. -/
def hasLoopRe (s : List Char) : Bool :=
  hasSub s (cs "for") || hasSub s (cs "while")

/-- Model of `/(for|while)[\s\S]*(for|while)/.test(code)`: a loop token at
some index followed (at or after its end) by a second loop token. -/
def nestedRe (s : List Char) : Bool :=
  (List.range s.length).any fun i =>
    match tokLenAt s i with
    | some k => (List.range s.length).any fun j => decide (i + k ≤ j) && (tokLenAt s j).isSome
    | none => false

/-- The `time` assignment chain of the analyzer:
`let time = "O(1)"; if (hasLoop) time = "O(n)"; if (nested) time = "O(n²)"`. -/
def timeEstimate (code : List Char) : String :=
  if nestedRe code then "O(n²)"
  else if hasLoopRe code then "O(n)"
  else "O(1)"

/-- The `space` estimate of the analyzer. -/
def spaceEstimate (code : List Char) : String :=
  if hasSub code (cs "new ") || hasSub code (cs "malloc") then "O(n)" else "O(1)"

/-! ## Review composer (`analyzeCodeHeuristics`) -/

structure ReviewSection where
  title : String
  items : List String
deriving DecidableEq

structure ComplexityInfo where
  time : String
  space : String
  notes : String
deriving DecidableEq

structure ReviewResponse where
  language : String
  summary : String
  suggestedFix : List Char
  potentialIssues : ReviewSection
  improvements : ReviewSection
  complexity : ComplexityInfo
deriving DecidableEq

def debugMsg : String := "Debug output detected (cout / console.log / print)."

def todoMsg : String := "TODO comments present in code."

def noIssuesMsg : String := "No obvious issues detected by rule engine."

/-- The issue pushes of `analyzeCodeHeuristics`, in source order: terminator
issues, quote issues, bracket issues, one debug-output diagnostic, one TODO
diagnostic. -/
def orderedIssues (language : String) (code : List Char) : List String :=
  detectMissingSemicolons language code ++
  detectUnclosedQuotes code ++
  checkUnbalancedBraces code ++
  (if hasSub code (cs "cout <<") || hasSub code (cs "console.log") ||
      hasSub code (cs "print(") then [debugMsg] else []) ++
  (if hasSub (toLowerC code) (cs "todo") then [todoMsg] else [])

/-- Source function `analyzeCodeHeuristics`. -/
def analyzeCodeHeuristics (language : String) (code : List Char) : ReviewResponse :=
  let potential := orderedIssues language code
  { language := language
    summary := "Review generated using rule-based static analysis engine."
    suggestedFix := generateSuggestedFix language code
    potentialIssues :=
      { title := "Potential Issues"
        items := if potential.isEmpty then [noIssuesMsg] else potential }
    improvements :=
      { title := "Improvements"
        items := ["Use meaningful variable and function names.",
                  "Add edge case tests.",
                  "Split large functions into smaller ones."] }
    complexity :=
      { time := timeEstimate code
        space := spaceEstimate code
        notes := "Heuristic static analysis (rule-based, not compiler-level)." } }

/-! ## Request boundary (`ReviewRequestSchema` and `POST`) -/

/-- A request body as received by the route: either field may be absent. -/
structure RawReviewRequest where
  language : Option String
  code : Option String

/-- Model of `ReviewRequestSchema.safeParse` followed by
`parsed.error.issues[0].message`.  The zod schema is
`{ language: z.string().min(1), code: z.string().min(5) }`; fields are
validated in declaration order and the first issue message is surfaced
(zod default texts, modelled here verbatim). -/
def reviewRequestParse (r : RawReviewRequest) : Except String (String × String) :=
  match r.language with
  | none => .error "Required"
  | some lang =>
    if lang.length < 1 then
      .error "String must contain at least 1 character(s)"
    else
      match r.code with
      | none => .error "Required"
      | some code =>
        if code.length < 5 then
          .error "String must contain at least 5 character(s)"
        else .ok (lang, code)

/-- An HTTP response of the route: a JSON review payload or an error body. -/
inductive ApiResponse where
  | ok (status : Nat) (body : ReviewResponse)
  | err (status : Nat) (message : String)
deriving DecidableEq

/-- Source function `POST` (the rule-engine route variant): validate, then
analyze; validation failure returns a 400 with the first issue message. -/
def POST (req : RawReviewRequest) : ApiResponse :=
  match reviewRequestParse req with
  | .error msg => .err 400 msg
  | .ok (language, code) => .ok 200 (analyzeCodeHeuristics language code.data)

/-! ## The balanced-bracket predicate used by claim C2 -/

/-- Opener/closer bracket pairs. -/
def isPair (o c : Char) : Prop :=
  (o = '(' ∧ c = ')') ∨ (o = '\x7b' ∧ c = '\x7d') ∨ (o = '[' ∧ c = ']')

/-- Correctly nested code: every bracket type has matching openers and
closers in well-nested order, with arbitrary non-bracket characters in
between.  This is the claim-side reading of "equal counts of each bracket
type in correctly nested order". -/
inductive Balanced : List Char → Prop
  | nil : Balanced []
  | other (c : Char)
      (ho : (cs "(\x7b[").contains c = false)
      (hc : (cs ")\x7d]").contains c = false) : Balanced [c]
  | wrap (o c : Char) (s : List Char) (hp : isPair o c)
      (hs : Balanced s) : Balanced (o :: s ++ [c])
  | append (s t : List Char) (hs : Balanced s) (ht : Balanced t) :
      Balanced (s ++ t)

/-- The spec-side composition of potential issues for claim C5, following
the spec text: debug detection, then a single diagnostic when the
case-insensitive substring "todo" or "fixme" occurs. -/
def specPotentialIssues (language : String) (code : List Char) : List String :=
  detectMissingSemicolons language code ++
  detectUnclosedQuotes code ++
  checkUnbalancedBraces code ++
  (if hasSub code (cs "cout <<") || hasSub code (cs "console.log") ||
      hasSub code (cs "print(") then [debugMsg] else []) ++
  (if hasSub (toLowerC code) (cs "todo") || hasSub (toLowerC code) (cs "fixme") then
    [todoMsg] else [])

end ChatCodeReviewer

namespace ChatCodeReviewer

/-! ## Helper lemmas about the string primitives -/

theorem startsC_iff (p : List Char) : ∀ l, startsC l p = true ↔ ∃ r, l = p ++ r := by
  induction p with
  | nil =>
    intro l
    simp [startsC]
  | cons a ps ih =>
    intro l
    cases l with
    | nil => simp [startsC]
    | cons b ls =>
      simp only [startsC, Bool.and_eq_true, beq_iff_eq]
      constructor
      · rintro ⟨rfl, h⟩
        obtain ⟨r, rfl⟩ := (ih ls).mp h
        exact ⟨r, rfl⟩
      · rintro ⟨r, h⟩
        injection h with h1 h2
        exact ⟨h1.symm, (ih ls).mpr ⟨r, h2⟩⟩

theorem endsC_append (x : List Char) (c : Char) : endsC (x ++ [c]) [c] = true := by
  simp [endsC, List.reverse_append, startsC]

theorem trimR_append (x : List Char) (c : Char) (h : wsChar c = false) :
    trimR (x ++ [c]) = x ++ [c] := by
  simp [trimR, List.reverse_append, List.dropWhile_cons, h]

theorem trimL_append (x : List Char) (c : Char) (h : wsChar c = false) :
    trimL (x ++ [c]) = trimL x ++ [c] := by
  simp only [trimL, List.dropWhile_append]
  split
  · next hemp =>
    rw [List.isEmpty_iff] at hemp
    rw [hemp]
    simp [List.dropWhile_cons, h]
  · rfl

theorem trimC_append (x : List Char) (c : Char) (h : wsChar c = false) :
    trimC (x ++ [c]) = trimL x ++ [c] := by
  rw [trimC, trimL_append x c h, trimR_append _ c h]

theorem quoteCount_append (l t : List Char) :
    quoteCount (l ++ t) = quoteCount l + quoteCount t :=
  List.count_append _ _ _

/-! ## Helper lemmas about line splitting and joining -/

theorem splitLines_ne_nil (s : List Char) : splitLines s ≠ [] := by
  induction s with
  | nil => simp [splitLines]
  | cons c rest ih =>
    simp only [splitLines]
    split
    · simp
    · split <;> simp

theorem noNl_of_mem_splitLines (s : List Char) :
    ∀ l ∈ splitLines s, '\n' ∉ l := by
  induction s with
  | nil =>
    intro l hl
    simp [splitLines] at hl
    simp [hl]
  | cons c rest ih =>
    intro l hl
    by_cases h : c = '\n'
    · rw [splitLines, if_pos h] at hl
      rcases List.mem_cons.mp hl with rfl | hmem
      · simp
      · exact ih l hmem
    · rw [splitLines, if_neg h] at hl
      cases hsp : splitLines rest with
      | nil => exact absurd hsp (splitLines_ne_nil rest)
      | cons l0 ls =>
        rw [hsp] at hl
        rcases List.mem_cons.mp hl with rfl | hmem
        · intro hnl
          rcases List.mem_cons.mp hnl with hc | hmem0
          · exact h hc.symm
          · exact ih l0 (hsp ▸ List.mem_cons_self l0 ls) hmem0
        · exact ih l (hsp ▸ List.mem_cons_of_mem l0 hmem)

theorem splitLines_of_noNl (l : List Char) (h : '\n' ∉ l) : splitLines l = [l] := by
  induction l with
  | nil => rfl
  | cons c rest ih =>
    have hc : c ≠ '\n' := fun e => h (by simp [e])
    have hr : splitLines rest = [rest] := ih (fun hm => h (List.mem_cons_of_mem c hm))
    simp only [splitLines, if_neg (fun e => hc e), hr]

theorem splitLines_append_nl : ∀ (l rest : List Char), '\n' ∉ l →
    splitLines (l ++ '\n' :: rest) = l :: splitLines rest := by
  intro l
  induction l with
  | nil =>
    intro rest _
    simp [splitLines]
  | cons c l ih =>
    intro rest h
    have hc : c ≠ '\n' := fun e => h (by simp [e])
    have hl : '\n' ∉ l := fun hm => h (by simp [hm])
    simp only [List.cons_append, splitLines, if_neg (fun e => hc e), List.append_eq,
      ih rest hl]

theorem splitLines_joinLines : ∀ (ls : List (List Char)), ls ≠ [] →
    (∀ l ∈ ls, '\n' ∉ l) → splitLines (joinLines ls) = ls := by
  intro ls
  induction ls with
  | nil => intro h; exact absurd rfl h
  | cons l ls ih =>
    intro _ hno
    cases ls with
    | nil => simpa [joinLines] using splitLines_of_noNl l (hno l (by simp))
    | cons l2 ls2 =>
      rw [joinLines, splitLines_append_nl l _ (hno l (by simp)),
        ih (by simp) (fun x hx => hno x (by simp [hx]))]

end ChatCodeReviewer

namespace ChatCodeReviewer

/-! ## Helper lemmas about the fix generator -/

theorem fixLine_exists_append (l : List Char) :
    ∃ t, fixLine l = l ++ t ∧ ∀ c ∈ t, c = '"' ∨ c = ';' := by
  by_cases hq : quoteCount l % 2 ≠ 0 <;>
    by_cases hc : (likelyStatement (trimC l) && !endsC (trimC l) (cs ";") &&
      !fixIgnore (trimC l)) = true
  · exact ⟨['"', ';'], by simp [fixLine, hq, hc, List.append_assoc], by decide⟩
  · exact ⟨['"'], by simp [fixLine, hq, hc], by decide⟩
  · exact ⟨[';'], by simp [fixLine, hq, hc], by decide⟩
  · exact ⟨[], by simp [fixLine, hq, hc], by decide⟩

theorem quoteCount_fixLine (l : List Char) : quoteCount (fixLine l) % 2 = 0 := by
  obtain ⟨t, ht, hmem⟩ := fixLine_exists_append l
  by_cases hq : quoteCount l % 2 ≠ 0 <;>
    by_cases hc : (likelyStatement (trimC l) && !endsC (trimC l) (cs ";") &&
      !fixIgnore (trimC l)) = true
  · have h1 : fixLine l = l ++ ['"', ';'] := by
      simp [fixLine, hq, hc, List.append_assoc]
    rw [h1, quoteCount_append, show quoteCount ['"', ';'] = 1 from by decide]
    omega
  · have h1 : fixLine l = l ++ ['"'] := by simp [fixLine, hq, hc]
    rw [h1, quoteCount_append, show quoteCount ['"'] = 1 from by decide]
    omega
  · have h1 : fixLine l = l ++ [';'] := by simp [fixLine, hq, hc]
    rw [h1, quoteCount_append, show quoteCount [';'] = 0 from by decide]
    omega
  · have h1 : fixLine l = l := by simp [fixLine, hq, hc]
    rw [h1]
    omega

theorem fixLine_fixLine_of_even (l : List Char) (h : quoteCount l % 2 = 0) :
    fixLine (fixLine l) = fixLine l := by
  by_cases hc : (likelyStatement (trimC l) && !endsC (trimC l) (cs ";") &&
    !fixIgnore (trimC l)) = true
  · have h1 : fixLine l = l ++ [';'] := by simp [fixLine, h, hc]
    rw [h1]
    have hq2 : quoteCount (l ++ [';']) % 2 = 0 := by
      rw [quoteCount_append, show quoteCount [';'] = 0 from by decide]
      omega
    have ht : trimC (l ++ [';']) = trimL l ++ [';'] := trimC_append l ';' (by decide)
    have hend : endsC (trimC (l ++ [';'])) (cs ";") = true := by
      rw [ht]
      exact endsC_append (trimL l) ';'
    simp [fixLine, hq2, hend]
  · have h1 : fixLine l = l := by simp [fixLine, h, hc]
    rw [h1, h1]

theorem fixLine_three (l : List Char) :
    fixLine (fixLine (fixLine l)) = fixLine (fixLine l) :=
  fixLine_fixLine_of_even (fixLine l) (quoteCount_fixLine l)

theorem map_fixLine_three (ms : List (List Char)) :
    ((ms.map fixLine).map fixLine).map fixLine = (ms.map fixLine).map fixLine := by
  induction ms with
  | nil => rfl
  | cons m ms ih => simp only [List.map_cons, ih, fixLine_three]

theorem noNl_map_fixLine (ls : List (List Char)) (hno : ∀ l ∈ ls, '\n' ∉ l) :
    ∀ l' ∈ ls.map fixLine, '\n' ∉ l' := by
  intro l' hl'
  rw [List.mem_map] at hl'
  obtain ⟨l, hl, rfl⟩ := hl'
  obtain ⟨t, ht, hmem⟩ := fixLine_exists_append l
  rw [ht]
  intro hnl
  rcases List.mem_append.mp hnl with h1 | h2
  · exact hno l hl h1
  · rcases hmem _ h2 with e | e <;> exact absurd e (by decide)

theorem gsf_of_mem (lang : String) (code : List Char) (h : lang ∈ terminatorLanguages) :
    generateSuggestedFix lang code = joinLines ((splitLines code).map fixLine) := by
  simp [generateSuggestedFix, h]

theorem splitLines_join_map_fixLine (ls : List (List Char)) (hne : ls ≠ [])
    (hno : ∀ l ∈ ls, '\n' ∉ l) :
    splitLines (joinLines (ls.map fixLine)) = ls.map fixLine :=
  splitLines_joinLines _ (by simpa using hne) (noNl_map_fixLine ls hno)

theorem gsf_gsf_of_mem (lang : String) (code : List Char) (h : lang ∈ terminatorLanguages) :
    generateSuggestedFix lang (generateSuggestedFix lang code) =
      joinLines (((splitLines code).map fixLine).map fixLine) := by
  rw [gsf_of_mem lang code h, gsf_of_mem lang _ h,
    splitLines_join_map_fixLine _ (splitLines_ne_nil code) (noNl_of_mem_splitLines code)]

end ChatCodeReviewer

namespace ChatCodeReviewer

/-! ## Helper lemmas about the bracket scanner -/

theorem braceScan_append (s t : List Char) :
    ∀ (i : Nat) (st : List Char) (errs : List String),
      braceScan (s ++ t) i st errs =
        braceScan t (i + s.length) (braceScan s i st errs).1 (braceScan s i st errs).2 := by
  induction s with
  | nil =>
    intro i st errs
    simp [braceScan]
  | cons c s ih =>
    intro i st errs
    simp only [List.cons_append, braceScan, List.length_cons, List.append_eq]
    rw [ih (i + 1)]
    have harith : i + 1 + s.length = i + (s.length + 1) := by omega
    rw [harith]

theorem braceStep_other (c : Char) (i : Nat) (st : List Char) (errs : List String)
    (ho : (cs "(\x7b[").contains c = false) (hc : (cs ")\x7d]").contains c = false) :
    braceStep c i st errs = (st, errs) := by
  simp only [braceStep, ho, hc]
  simp

theorem braceScan_balanced {s : List Char} (h : Balanced s) :
    ∀ (i : Nat) (st : List Char) (errs : List String), braceScan s i st errs = (st, errs) := by
  induction h with
  | nil =>
    intro i st errs
    rfl
  | other c ho hc =>
    intro i st errs
    simp [braceScan, braceStep_other c i st errs ho hc]
  | wrap o c s hp hs ih =>
    intro i st errs
    obtain ⟨ho1, ho2, hc1, hc2, hpair⟩ :
        (cs "(\x7b[").contains o = true ∧ (cs ")\x7d]").contains o = false ∧
        (cs ")\x7d]").contains c = true ∧ (cs "(\x7b[").contains c = false ∧
        o = pairs c := by
      rcases hp with ⟨rfl, rfl⟩ | ⟨rfl, rfl⟩ | ⟨rfl, rfl⟩ <;>
        exact ⟨by decide, by decide, by decide, by decide, by decide⟩
    show braceScan (o :: (s ++ [c])) i st errs = (st, errs)
    simp only [braceScan]
    have hstep : braceStep o i st errs = (o :: st, errs) := by
      simp only [braceStep, ho1, ho2]
      simp
    rw [hstep, braceScan_append, ih (i + 1) (o :: st) errs]
    have hstep2 : braceStep c (i + 1 + s.length) (o :: st) errs = (st, errs) := by
      simp only [braceStep, hc1, hc2, hpair]
      simp
    simp [braceScan, hstep2]
  | append s t hs ht ihs iht =>
    intro i st errs
    rw [braceScan_append s t i st errs, ihs i st errs]
    exact iht (i + s.length) st errs

end ChatCodeReviewer

namespace ChatCodeReviewer

/-! ## Helper lemmas about the loop regex model -/

theorem tokLenAt_some_lt {s : List Char} {i : Nat}
    (h : (tokLenAt s i).isSome = true) : i < s.length := by
  unfold tokLenAt at h
  by_contra hge
  push_neg at hge
  rw [List.drop_eq_nil_iff.mpr hge] at h
  exact absurd h (by decide)

theorem tokLenAt_none_of_le {s : List Char} {i : Nat} (h : s.length ≤ i) :
    tokLenAt s i = none := by
  unfold tokLenAt
  rw [List.drop_eq_nil_iff.mpr h]
  decide

theorem tokLenAt_vals {s : List Char} {i k : Nat} (h : tokLenAt s i = some k) :
    k = 3 ∨ k = 5 := by
  unfold tokLenAt at h
  split at h
  · exact Or.inl (Option.some.inj h).symm
  · split at h
    · exact Or.inr (Option.some.inj h).symm
    · exact absurd h (by simp)

theorem hasSub_iff (l s : List Char) :
    hasSub l s = true ↔ ∃ i, startsC (l.drop i) s = true := by
  induction l with
  | nil =>
    constructor
    · intro h
      exact ⟨0, h⟩
    · rintro ⟨i, h⟩
      simpa using h
  | cons c ls ih =>
    simp only [hasSub, Bool.or_eq_true]
    constructor
    · rintro (h | h)
      · exact ⟨0, h⟩
      · obtain ⟨i, hi⟩ := ih.mp h
        exact ⟨i + 1, by simpa using hi⟩
    · rintro ⟨i, hi⟩
      cases i with
      | zero => exact Or.inl (by simpa using hi)
      | succ i => exact Or.inr (ih.mpr ⟨i, by simpa using hi⟩)

theorem hasLoopRe_iff (s : List Char) :
    hasLoopRe s = true ↔ ∃ i, (tokLenAt s i).isSome = true := by
  unfold hasLoopRe
  rw [Bool.or_eq_true, hasSub_iff, hasSub_iff]
  constructor
  · rintro (⟨i, h⟩ | ⟨i, h⟩)
    · exact ⟨i, by simp [tokLenAt, h]⟩
    · refine ⟨i, ?_⟩
      unfold tokLenAt
      split
      · simp
      · simp [h]
  · rintro ⟨i, h⟩
    unfold tokLenAt at h
    split at h
    · next hfor => exact Or.inl ⟨i, hfor⟩
    · split at h
      · next hwhile => exact Or.inr ⟨i, hwhile⟩
      · simp at h

theorem nestedRe_of_two {s : List Char} {i j k : Nat} (hi : tokLenAt s i = some k)
    (hij : i + k ≤ j) (hj : (tokLenAt s j).isSome = true) : nestedRe s = true := by
  have hilt : i < s.length := tokLenAt_some_lt (by simp [hi])
  have hjlt : j < s.length := tokLenAt_some_lt hj
  unfold nestedRe
  rw [List.any_eq_true]
  refine ⟨i, List.mem_range.mpr hilt, ?_⟩
  simp only [hi]
  rw [List.any_eq_true]
  exact ⟨j, List.mem_range.mpr hjlt, by simp [hij, hj]⟩

theorem nestedRe_false_of_unique {s : List Char} {i0 : Nat}
    (h : ∀ j, (tokLenAt s j).isSome = true → j = i0) : nestedRe s = false := by
  cases hn : nestedRe s with
  | false => rfl
  | true =>
    exfalso
    unfold nestedRe at hn
    rw [List.any_eq_true] at hn
    obtain ⟨i, _, hi⟩ := hn
    cases htok : tokLenAt s i with
    | none =>
      rw [htok] at hi
      simp at hi
    | some k =>
      rw [htok] at hi
      rw [List.any_eq_true] at hi
      obtain ⟨j, _, hj⟩ := hi
      simp only [Bool.and_eq_true, decide_eq_true_eq, Option.isSome_iff_exists] at hj
      obtain ⟨hle, k2, hk2⟩ := hj
      have hji : j = i0 := h j (by simp [hk2])
      have hii : i = i0 := h i (by simp [htok])
      have hk := tokLenAt_vals htok
      omega

end ChatCodeReviewer

namespace ChatCodeReviewer

/-! ## Claim theorems -/

/-- C1 (counterexample): the suggested-fix generator is not idempotent.  On
the single line `x = "a;` the first application appends only the closing
quote (the semicolon test sees the original trimmed line, which ends in a
semicolon), producing `x = "a;"`; a second application then appends a
semicolon, producing `x = "a;";`. -/
theorem generateSuggestedFix_not_idempotent :
    generateSuggestedFix "C++" (generateSuggestedFix "C++" (cs "x = \"a;")) ≠
      generateSuggestedFix "C++" (cs "x = \"a;") := by
  decide

/-- C1 (amended): the suggested-fix generator is idempotent from the second
application on: for every language and code string, a third application
returns the second application's output unchanged.  (A single application
is not a fixed point exactly when a line's closing-quote repair hides a
trailing terminator, as in the counterexample.) -/
theorem generateSuggestedFix_third_eq_second (lang : String) (code : List Char) :
    generateSuggestedFix lang
        (generateSuggestedFix lang (generateSuggestedFix lang code)) =
      generateSuggestedFix lang (generateSuggestedFix lang code) := by
  by_cases h : lang ∈ terminatorLanguages
  · rw [gsf_gsf_of_mem lang code h, gsf_of_mem lang _ h,
      splitLines_join_map_fixLine ((splitLines code).map fixLine)
        (by simpa using splitLines_ne_nil code)
        (noNl_map_fixLine _ (noNl_of_mem_splitLines code)),
      map_fixLine_three]
  · simp [generateSuggestedFix, h]

/-- C2: on every correctly nested code string (equal, well-nested openers
and closers of each bracket type, with arbitrary non-bracket characters in
between) the bracket checker returns an empty diagnostic sequence. -/
theorem checkUnbalancedBraces_balanced (code : List Char) (h : Balanced code) :
    checkUnbalancedBraces code = [] := by
  simp [checkUnbalancedBraces, braceScan_balanced h]

/-- C2 (witness): the bracket checker accepts the concretely nested string
`({[]})`. -/
theorem checkUnbalancedBraces_balanced_witness :
    checkUnbalancedBraces (cs "(\x7b[]\x7d)") = [] :=
  checkUnbalancedBraces_balanced _
    (Balanced.wrap '(' ')' _ (Or.inl ⟨rfl, rfl⟩)
      (Balanced.wrap '\x7b' '\x7d' _ (Or.inr (Or.inl ⟨rfl, rfl⟩))
        (Balanced.wrap '[' ']' _ (Or.inr (Or.inr ⟨rfl, rfl⟩)) Balanced.nil)))

/-- C10: for every language and code string, the output of the suggested-fix
generator has exactly as many lines as the input and each output line
begins with the corresponding input line, the only possible change being
appended closing-quote and/or terminator characters at the line's end. -/
theorem generateSuggestedFix_line_structure (lang : String) (code : List Char) :
    List.Forall₂ (fun a b => ∃ t, b = a ++ t ∧ ∀ c ∈ t, c = '"' ∨ c = ';')
      (splitLines code) (splitLines (generateSuggestedFix lang code)) := by
  by_cases h : lang ∈ terminatorLanguages
  · rw [gsf_of_mem lang code h,
      splitLines_join_map_fixLine _ (splitLines_ne_nil code) (noNl_of_mem_splitLines code),
      List.forall₂_map_right_iff, List.forall₂_same]
    intro l _
    exact fixLine_exists_append l
  · simp only [generateSuggestedFix, if_neg h]
    rw [List.forall₂_same]
    intro l _
    exact ⟨[], (List.append_nil l).symm, by simp⟩

end ChatCodeReviewer

namespace ChatCodeReviewer

/-- C3: the time label of the complexity estimate is the three-way
classification of the source's regex tests: a loop token (`for`/`while`
occurrence) followed at or after its end by a second loop token yields the
quadratic label; exactly one loop-token occurrence yields the linear label;
no loop-token occurrence yields the constant label. -/
theorem complexity_time_classification :
    (∀ (lang : String) (code : List Char) (i j k : Nat),
        tokLenAt code i = some k → i + k ≤ j → (tokLenAt code j).isSome = true →
        (analyzeCodeHeuristics lang code).complexity.time = "O(n²)") ∧
    (∀ (lang : String) (code : List Char) (i : Nat),
        (tokLenAt code i).isSome = true →
        (∀ j, (tokLenAt code j).isSome = true → j = i) →
        (analyzeCodeHeuristics lang code).complexity.time = "O(n)") ∧
    (∀ (lang : String) (code : List Char),
        (∀ i, tokLenAt code i = none) →
        (analyzeCodeHeuristics lang code).complexity.time = "O(1)") := by
  refine ⟨?_, ?_, ?_⟩
  · intro lang code i j k hi hij hj
    have hn := nestedRe_of_two hi hij hj
    simp [analyzeCodeHeuristics, timeEstimate, hn]
  · intro lang code i hi huniq
    have hn : nestedRe code = false := nestedRe_false_of_unique huniq
    have hl : hasLoopRe code = true := (hasLoopRe_iff code).mpr ⟨i, hi⟩
    simp [analyzeCodeHeuristics, timeEstimate, hn, hl]
  · intro lang code hnone
    have hl : hasLoopRe code = false := by
      cases hb : hasLoopRe code with
      | false => rfl
      | true =>
        exfalso
        obtain ⟨i, hi⟩ := (hasLoopRe_iff code).mp hb
        rw [hnone i] at hi
        exact absurd hi (by decide)
    have hn : nestedRe code = false := by
      cases hb : nestedRe code with
      | false => rfl
      | true =>
        exfalso
        unfold nestedRe at hb
        rw [List.any_eq_true] at hb
        obtain ⟨i, _, hi⟩ := hb
        rw [hnone i] at hi
        simp at hi
    simp [analyzeCodeHeuristics, timeEstimate, hn, hl]

/-- C3 (witness): `for x while y` is labelled quadratic, `for` linear, and
`abc` constant. -/
theorem complexity_time_classification_witness :
    (analyzeCodeHeuristics "Go" (cs "for x while y")).complexity.time = "O(n²)" ∧
    (analyzeCodeHeuristics "Go" (cs "for")).complexity.time = "O(n)" ∧
    (analyzeCodeHeuristics "Go" (cs "abc")).complexity.time = "O(1)" := by
  refine ⟨?_, ?_, ?_⟩
  · exact complexity_time_classification.1 "Go" (cs "for x while y") 0 6 3
      (by decide) (by decide) (by decide)
  · refine complexity_time_classification.2.1 "Go" (cs "for") 0 (by decide) ?_
    intro j hj
    by_cases hlt : j < 3
    · interval_cases j
      · rfl
      · exact absurd hj (by decide)
      · exact absurd hj (by decide)
    · exfalso
      have h3 : (cs "for").length = 3 := by decide
      rw [tokLenAt_none_of_le (by rw [h3]; omega)] at hj
      exact absurd hj (by decide)
  · refine complexity_time_classification.2.2 "Go" (cs "abc") ?_
    intro i
    by_cases hlt : i < 3
    · interval_cases i <;> decide
    · have h3 : (cs "abc").length = 3 := by decide
      exact tokLenAt_none_of_le (by rw [h3]; omega)

/-- C4 (counterexample): the terminator checker does flag a line that ends
in a colon, and also a line that opens a conditional construct with a
leading keyword; neither is exempted by the code. -/
theorem detectMissingSemicolons_colon_flagged :
    detectMissingSemicolons "C++" (cs "x = 5:") = [missingSemiMsg 1] ∧
    detectMissingSemicolons "C++" (cs "if (a == b) return 0") = [missingSemiMsg 1] := by
  decide

/-- C4 (amended): for every terminator-using language the checker skips
blank lines, line-comment lines, and lines whose trimmed form ends in an
opening or closing curly brace; lines ending in a colon and lines opening a
conditional/loop/class construct are not exempted and may be flagged. -/
theorem semicolonLineIssue_skips (idx : Nat) (raw : List Char)
    (h : trimC raw = [] ∨ startsC (trimC raw) (cs "//") = true ∨
      endsC (trimC raw) (cs "\x7b") = true ∨ endsC (trimC raw) (cs "\x7d") = true) :
    semicolonLineIssue idx raw = none := by
  unfold semicolonLineIssue
  rcases h with h | h | h | h <;> simp [h]

/-- C4 (witness): a comment line is skipped by the checker. -/
theorem semicolonLineIssue_skips_witness :
    semicolonLineIssue 0 (cs "   // x = 5") = none :=
  semicolonLineIssue_skips 0 _ (Or.inr (Or.inl (by decide)))

/-- C5 (counterexample): the composer does not detect the case-insensitive
substring `fixme`.  On the code `fixme` the spec-side composition (which
includes fixme detection) produces the TODO diagnostic, while the code
produces the no-issue placeholder instead. -/
theorem potentialIssues_fixme_missed :
    hasSub (toLowerC (cs "fixme")) (cs "fixme") = true ∧
    (analyzeCodeHeuristics "Go" (cs "fixme")).potentialIssues.items ≠
      specPotentialIssues "Go" (cs "fixme") := by
  decide

/-- C5 (amended): the composer's potentialIssues list is the concatenation,
in this fixed order, of terminator diagnostics, quote diagnostics, bracket
diagnostics, a single debug-output diagnostic when a debug-call name occurs,
and a single diagnostic when the case-insensitive substring `todo` occurs
(`fixme` is not checked) — except that an empty concatenation is replaced by
the single no-issue placeholder message. -/
theorem potentialIssues_order (lang : String) (code : List Char) :
    (analyzeCodeHeuristics lang code).potentialIssues.items =
      if orderedIssues lang code = [] then [noIssuesMsg]
      else orderedIssues lang code := by
  simp [analyzeCodeHeuristics, List.isEmpty_iff]

/-- C6 (counterexample): no language receives an extended improvements
list — all six supported languages yield the identical fixed three-item
list (in particular the type-hint/docstring language receives no fourth,
language-specific suggestion). -/
theorem improvements_no_language_extension :
    (analyzeCodeHeuristics "Python" (cs "x = 1")).improvements.items =
      (analyzeCodeHeuristics "Go" (cs "x = 1")).improvements.items ∧
    (analyzeCodeHeuristics "C++" (cs "x = 1")).improvements.items =
      (analyzeCodeHeuristics "Go" (cs "x = 1")).improvements.items ∧
    (analyzeCodeHeuristics "Java" (cs "x = 1")).improvements.items =
      (analyzeCodeHeuristics "Go" (cs "x = 1")).improvements.items ∧
    (analyzeCodeHeuristics "JavaScript" (cs "x = 1")).improvements.items =
      (analyzeCodeHeuristics "Go" (cs "x = 1")).improvements.items ∧
    (analyzeCodeHeuristics "TypeScript" (cs "x = 1")).improvements.items =
      (analyzeCodeHeuristics "Go" (cs "x = 1")).improvements.items ∧
    (analyzeCodeHeuristics "Python" (cs "x = 1")).improvements.items.length = 3 :=
  ⟨rfl, rfl, rfl, rfl, rfl, rfl⟩

/-- C6 (amended): for every language (and every code string) the
improvements list is exactly the fixed ordered three-item list of generic
best-practice suggestions; there is no language-specific extension. -/
theorem improvements_fixed_list (lang : String) (code : List Char) :
    (analyzeCodeHeuristics lang code).improvements.items =
      ["Use meaningful variable and function names.",
       "Add edge case tests.",
       "Split large functions into smaller ones."] := rfl

/-- C7: for every language and code string, the composed potentialIssues
sequence is non-empty, and when no checker detected any issue it is exactly
the single fixed placeholder message. -/
theorem potentialIssues_nonempty (lang : String) (code : List Char) :
    (analyzeCodeHeuristics lang code).potentialIssues.items ≠ [] ∧
    (orderedIssues lang code = [] →
      (analyzeCodeHeuristics lang code).potentialIssues.items = [noIssuesMsg]) := by
  constructor
  · simp only [analyzeCodeHeuristics]
    cases h : orderedIssues lang code with
    | nil => simp [h]
    | cons a l => simp [h]
  · intro h
    simp [analyzeCodeHeuristics, h]

/-- C7 (witness): on the issue-free code `fixme` for language `Go` the
composer returns exactly the placeholder. -/
theorem potentialIssues_nonempty_witness :
    (analyzeCodeHeuristics "Go" (cs "fixme")).potentialIssues.items ≠ [] ∧
    (analyzeCodeHeuristics "Go" (cs "fixme")).potentialIssues.items = [noIssuesMsg] :=
  ⟨(potentialIssues_nonempty "Go" (cs "fixme")).1,
   (potentialIssues_nonempty "Go" (cs "fixme")).2 (by decide)⟩

/-- C8: for every language outside the terminator-using set, the terminator
checker returns no diagnostics and the suggested-fix generator returns the
code unchanged. -/
theorem non_terminator_language_noop (lang : String) (code : List Char)
    (h : lang ∉ terminatorLanguages) :
    detectMissingSemicolons lang code = [] ∧ generateSuggestedFix lang code = code := by
  constructor
  · simp [detectMissingSemicolons, h]
  · simp [generateSuggestedFix, h]

/-- C8 (witness): Python is outside the terminator-using set, so the checker
and the fix generator are inert on it. -/
theorem non_terminator_language_noop_witness :
    detectMissingSemicolons "Python" (cs "x = 5") = [] ∧
    generateSuggestedFix "Python" (cs "x = 5") = cs "x = 5" :=
  non_terminator_language_noop "Python" (cs "x = 5") (by decide)

/-- C9: every request with a missing or empty language, a missing code
field, or a code field below the minimum length is rejected with a 400
response carrying a non-empty error message, and no review result is
produced. -/
theorem post_invalid_rejected (req : RawReviewRequest)
    (h : req.language = none ∨ req.language = some "" ∨ req.code = none ∨
      ∃ c, req.code = some c ∧ c.length < 5) :
    ∃ msg, POST req = .err 400 msg ∧ msg ≠ "" := by
  rcases req with ⟨l?, c?⟩
  cases l? with
  | none => exact ⟨"Required", by simp [POST, reviewRequestParse], by decide⟩
  | some lang =>
    by_cases hl : lang.length < 1
    · exact ⟨"String must contain at least 1 character(s)",
        by simp [POST, reviewRequestParse, hl], by decide⟩
    · cases c? with
      | none => exact ⟨"Required", by simp [POST, reviewRequestParse, hl], by decide⟩
      | some c =>
        have hc5 : c.length < 5 := by
          rcases h with h | h | h | ⟨c', hc', hlen⟩
          · exact absurd h (by simp)
          · exfalso
            simp only [Option.some.injEq] at h
            subst h
            exact hl (by decide)
          · exact absurd h (by simp)
          · simp only [Option.some.injEq] at hc'
            subst hc'
            exact hlen
        exact ⟨"String must contain at least 5 character(s)",
          by simp [POST, reviewRequestParse, hl, hc5], by decide⟩

/-- C9 (witness): a request whose code is shorter than the minimum length is
rejected with a non-empty message. -/
theorem post_invalid_rejected_witness :
    ∃ msg, POST ⟨some "C++", some "hi"⟩ = .err 400 msg ∧ msg ≠ "" :=
  post_invalid_rejected ⟨some "C++", some "hi"⟩
    (Or.inr (Or.inr (Or.inr ⟨"hi", rfl, by decide⟩)))

end ChatCodeReviewer
